import Mathlib

/-!
Exit-callback registry of the Windows CRT startup shims.

A shallow embedding of `winsdk/msvcrt_atexit.c` (`atexit`, `term_atexit`) and of the
entry point `mainCRTStartup` / `WinMainCRTStartup` of `winsdk/msvcrt_stub.c`.

Modelling conventions.

* A function pointer `_PVFV` is identified by its address, a natural number.
* The chain of `atexit_node`s reachable from the file-scope pointer `atexit_list` is a
  `List` of the `pfn` fields, head first: `node->next = atexit_list; atexit_list = node`
  is a cons, `atexit_list = n->next` drops the head, and `free(n)` releases the cell that
  was just dropped.
* `malloc` is an oracle: it is asked with the history of the run so far and answers
  whether the pointer it returns is non-null.
* What a callback does when it is invoked is a finite program over the registry (`Code`):
  it returns, or it calls `atexit` and goes on according to the value returned.  The program
  a function pointer runs may depend on everything that happened before (`env`).
* The run is instrumented with a chronological log (`Ev`) of callback invocations and of
  `atexit` calls; the log is not read by `atexit` or `term_atexit`.
* The loop of `term_atexit` takes a bound on the number of iterations; `none` means that
  the bound was reached with the chain still non-empty.
* The functions the entry point calls (`main`, `_initterm`, ...) are inputs (`Prog`): each
  may call `atexit`, and each may keep control for good, by ending the process or by running
  forever.  An execution of the entry point (`mainCRTStartup_run`) is followed as far as
  control comes back, the drain being the `term_atexit` above.
-/

namespace Winsdk

/-! ## msvcrt_atexit.c -/

/-- The type `_PVFV` of `void (*)(void)` function pointers, identified by address. -/
abbrev _PVFV := Nat

/-- Instrumentation: the observable events of a run of the registry. -/
inductive Ev where
  /-- The statement `(*(n->pfn))()` of `term_atexit` called `pfn`. -/
  | invoke (pfn : _PVFV)
  /-- A call `atexit(pfn)` returned `ret`. -/
  | atexit (pfn : _PVFV) (ret : Int)
  deriving DecidableEq, Repr

/-- The registry: the chain headed by the static `atexit_list`, and the event log. -/
structure State where
  atexit_list : List _PVFV
  log : List Ev
  deriving DecidableEq, Repr

/-- The registry at process start: `atexit_list` is a zero-initialised static. -/
def State.init : State := ⟨[], []⟩

/-- `int atexit(_PVFV pfn)`: the value returned and the registry afterwards.
`malloc s.log` tells whether `malloc(sizeof(atexit_node))` returned a node. -/
def atexit (malloc : List Ev → Bool) (pfn : _PVFV) (s : State) : Int × State :=
  if malloc s.log then
    -- node->pfn = pfn; node->next = atexit_list; atexit_list = node; return 0;
    (0, { atexit_list := pfn :: s.atexit_list, log := s.log ++ [Ev.atexit pfn 0] })
  else
    -- if(!node) return -1;
    (-1, { atexit_list := s.atexit_list, log := s.log ++ [Ev.atexit pfn (-1)] })

/-- The body of a callback, as far as the registry is concerned. -/
inductive Code where
  /-- The callback returns. -/
  | ret : Code
  /-- The callback calls `atexit(pfn)` and continues with `k r`, `r` the value returned. -/
  | call_atexit (pfn : _PVFV) (k : Int → Code) : Code

/-- Execution of a callback body on the registry. -/
def Code.run (malloc : List Ev → Bool) : Code → State → State
  | .ret, s => s
  | .call_atexit pfn k, s => (k (atexit malloc pfn s).1).run malloc (atexit malloc pfn s).2

/-- `void term_atexit()`.  `env pfn log` is the body that the function at `pfn` runs when it is
called at history `log`; the first argument bounds the number of loop iterations. -/
def term_atexit (env : _PVFV → List Ev → Code) (malloc : List Ev → Bool) :
    Nat → State → Option State
  | 0, s =>
    match s.atexit_list with
    | [] => some s
    | _ :: _ => none
  | fuel + 1, s =>
    match s.atexit_list with
    -- while(atexit_list) ... leaves the loop
    | [] => some s
    -- n = atexit_list; atexit_list = n->next; (*(n->pfn))(); free(n);
    | pfn :: next =>
      term_atexit env malloc fuel
        ((env pfn (s.log ++ [Ev.invoke pfn])).run malloc
          { atexit_list := next, log := s.log ++ [Ev.invoke pfn] })

/-- The callbacks invoked, in order of invocation. -/
def invoked : List Ev → List _PVFV
  | [] => []
  | Ev.invoke pfn :: es => pfn :: invoked es
  | Ev.atexit _ _ :: es => invoked es

/-- The callbacks whose registration succeeded (`atexit` returned 0), in order. -/
def registered : List Ev → List _PVFV
  | [] => []
  | Ev.invoke _ :: es => registered es
  | Ev.atexit pfn ret :: es => if ret = 0 then pfn :: registered es else registered es

/-- The calls `atexit(c1); ...; atexit(cN);` made in that order. -/
def registerAll (malloc : List Ev → Bool) (cs : List _PVFV) (s : State) : State :=
  cs.foldl (fun st c => (atexit malloc c st).2) s

/-- The sequence of pointers a body passes to `atexit` when every call returns 0. -/
def Code.registers : Code → List _PVFV
  | .ret => []
  | .call_atexit pfn k => pfn :: (k 0).registers

/-- The registry after `n` iterations of the loop of `term_atexit` (fewer when the chain
becomes empty before). -/
def iterations (env : _PVFV → List Ev → Code) (malloc : List Ev → Bool) :
    Nat → State → State
  | 0, s => s
  | n + 1, s =>
    match s.atexit_list with
    | [] => s
    | pfn :: next =>
      iterations env malloc n
        ((env pfn (s.log ++ [Ev.invoke pfn])).run malloc
          { atexit_list := next, log := s.log ++ [Ev.invoke pfn] })

/-- The oracle of a heap that never runs out. -/
def mallocOk : List Ev → Bool := fun _ => true

/-- The oracle of an exhausted heap. -/
def mallocFail : List Ev → Bool := fun _ => false

/-- The environment in which no callback touches the registry. -/
def envQuiet : _PVFV → List Ev → Code := fun _ _ => Code.ret

/-- The environment in which the callback at address 1 calls `atexit` on address 4 and every
other callback does nothing. -/
def envNested : _PVFV → List Ev → Code :=
  fun p _ => if p = 1 then Code.call_atexit 4 (fun _ => Code.ret) else Code.ret

/-- The environment in which the callback at address 1 calls `atexit` on address 4 and then
on address 5, and every other callback does nothing. -/
def envPair : _PVFV → List Ev → Code :=
  fun p _ =>
    if p = 1 then Code.call_atexit 4 (fun _ => Code.call_atexit 5 (fun _ => Code.ret))
    else Code.ret

/-- The environment in which every callback registers itself again. -/
def envSelf : _PVFV → List Ev → Code :=
  fun p _ => Code.call_atexit p (fun _ => Code.ret)

/-! ## msvcrt_stub.c -/

/-- The values of the macro `_APPTYPE` for which the entry point is compiled
(`__UNKNOWN_APP` selects `DllMainCRTStartup` instead). -/
inductive AppType where
  | CONSOLE_APP
  | GUI_APP
  deriving DecidableEq, Repr

/-- The numeric value of the macro: `__CONSOLE_APP` is 1 and `__GUI_APP` is 2. -/
def AppType.value : AppType → Nat
  | .CONSOLE_APP => 1
  | .GUI_APP => 2

/-- The function-pointer tables delimited by `__xi_a/__xi_z` (C init), `__xc_a/__xc_z`
(C++ init), `__xp_a/__xp_z` (C pre-terminators) and `__xt_a/__xt_z` (C terminators). -/
inductive Table where
  | xi
  | xc
  | xp
  | xt
  deriving DecidableEq, Repr

/-- The calls the entry point makes; `main r` and `WinMain r` stand for a call that
returned `r`. -/
inductive Call where
  | set_app_type (apptype : Nat)
  | getmainargs
  | initterm (t : Table)
  | main (r : Int)
  | GetStartupInfoA
  | GetCommandLineA
  | WinMain (r : Int)
  | term_atexit
  | ExitProcess (uExitCode : Int)
  deriving DecidableEq, Repr

/-- The entry point `mainCRTStartup` (`WinMainCRTStartup` when `_APPTYPE` is `__GUI_APP`):
the calls it makes, in program order, every callee returning (executions in general are
`mainCRTStartup_run`).  `r` is the value returned by
`main` (`WinMain`); `xRet` is the content of the local variable of that name, which is
declared without an initialiser and never assigned. -/
def mainCRTStartup (apptype : AppType) (r : Int) (xRet : Int) : List Call :=
  -- __set_app_type(_APPTYPE); __getmainargs(...); _initterm(__xi_a, __xi_z); _initterm(__xc_a, __xc_z);
  let startup := [Call.set_app_type apptype.value, Call.getmainargs,
    Call.initterm .xi, Call.initterm .xc]
  -- nRet = main(_argc, _argv, envp);   or   nRet = WinMain(...);
  let program :=
    match apptype with
    | .CONSOLE_APP => [Call.main r]
    | .GUI_APP => [Call.GetStartupInfoA, Call.GetCommandLineA, Call.WinMain r]
  let nRet := r
  -- term_atexit(); _initterm(__xp_a, __xp_z); _initterm(__xt_a, __xt_z);
  let shutdown := [Call.term_atexit, Call.initterm .xp, Call.initterm .xt]
  -- if (nRet == 0) nRet = xRet;
  let nRet := if nRet = 0 then xRet else nRet
  -- ExitProcess(nRet);
  startup ++ program ++ shutdown ++ [Call.ExitProcess nRet]

/-- The entry point of a GUI build. -/
def WinMainCRTStartup (r : Int) (xRet : Int) : List Call :=
  mainCRTStartup .GUI_APP r xRet

/-- The argument of the first `ExitProcess` call of a trace. -/
def exitCode : List Call → Option Int
  | [] => none
  | Call.ExitProcess c :: _ => some c
  | _ :: cs => exitCode cs

/-- What a function outside these files does when the entry point calls it, as far as the
registry and the control flow go. -/
inductive Prog (α : Type) where
  /-- The function returns `a` to the entry point. -/
  | ret (a : α) : Prog α
  /-- Control never comes back: the function ends the process (`exit`, `ExitProcess`,
  `abort`) or runs forever. -/
  | noreturn : Prog α
  /-- The function calls `atexit(pfn)` and continues with `k r`, `r` the value returned. -/
  | call_atexit (pfn : _PVFV) (k : Int → Prog α) : Prog α

/-- Execution of an outside function on the registry: the registry it leaves, and the value it
returns when it returns. -/
def Prog.run {α : Type} (malloc : List Ev → Bool) : Prog α → State → State × Option α
  | .ret a, s => (s, some a)
  | .noreturn, s => (s, none)
  | .call_atexit pfn k, s => (k (atexit malloc pfn s).1).run malloc (atexit malloc pfn s).2

/-- The functions the entry point calls that are defined outside these files. -/
structure Externals where
  /-- The function `__set_app_type`. -/
  set_app_type : Prog Unit
  /-- The function `__getmainargs`. -/
  getmainargs : Prog Unit
  /-- The function `_initterm` on each of the four tables. -/
  initterm : Table → Prog Unit
  /-- The function `GetStartupInfoA` (GUI build). -/
  GetStartupInfoA : Prog Unit
  /-- The function `GetCommandLineA` (GUI build). -/
  GetCommandLineA : Prog Unit
  /-- The function `main`, or `WinMain` in a GUI build. -/
  main : Prog Int

/-- A call of the outside function `c`, whose behaviour is `p`, made after the calls `t` in the
registry state `s`: the call is recorded, and there is a value when control comes back. -/
def callOut {α : Type} (malloc : List Ev → Bool) (c : Call) (p : Prog α) (t : List Call)
    (s : State) : List Call × State × Option α :=
  (t ++ [c], (p.run malloc s).1, (p.run malloc s).2)

/-- Lines 84-108 of the entry point, from `__set_app_type` to the assignment of `nRet`:
the calls made, the registry, and the value of `nRet` when `main` (`WinMain`) has returned.
The return of `main` is recorded as `Call.main nRet` (`Call.WinMain nRet`). -/
def mainCRTStartup_enter (X : Externals) (malloc : List Ev → Bool) (apptype : AppType)
    (s0 : State) : List Call × State × Option Int :=
  -- __set_app_type(_APPTYPE);
  match callOut malloc (Call.set_app_type apptype.value) X.set_app_type [] s0 with
  | (t, s, none) => (t, s, none)
  | (t, s, some _) =>
    -- __getmainargs(&_argc, &_argv, &envp, 0, &start_info);
    match callOut malloc Call.getmainargs X.getmainargs t s with
    | (t, s, none) => (t, s, none)
    | (t, s, some _) =>
      -- _initterm(__xi_a, __xi_z);
      match callOut malloc (Call.initterm .xi) (X.initterm .xi) t s with
      | (t, s, none) => (t, s, none)
      | (t, s, some _) =>
        -- _initterm(__xc_a, __xc_z);
        match callOut malloc (Call.initterm .xc) (X.initterm .xc) t s with
        | (t, s, none) => (t, s, none)
        | (t, s, some _) =>
          match apptype with
          | .CONSOLE_APP =>
            -- nRet = main(_argc, _argv, envp);
            match X.main.run malloc s with
            | (s, none) => (t, s, none)
            | (s, some nRet) => (t ++ [Call.main nRet], s, some nRet)
          | .GUI_APP =>
            -- GetStartupInfoA(&startupInfo);
            match callOut malloc Call.GetStartupInfoA X.GetStartupInfoA t s with
            | (t, s, none) => (t, s, none)
            | (t, s, some _) =>
              -- lpszCommandLine = GetCommandLineA();
              match callOut malloc Call.GetCommandLineA X.GetCommandLineA t s with
              | (t, s, none) => (t, s, none)
              | (t, s, some _) =>
                -- nRet = WinMain((HINSTANCE)&__ImageBase, NULL, lpszCommandLine, showWindowMode);
                match X.main.run malloc s with
                | (s, none) => (t, s, none)
                | (s, some nRet) => (t ++ [Call.WinMain nRet], s, some nRet)

/-- Lines 110-117 of the entry point, from the call of `term_atexit` to `ExitProcess`:
the calls made, the registry, and the argument of `ExitProcess` when that call is reached.
`fuel` bounds the iterations of the drain that are followed. -/
def mainCRTStartup_leave (X : Externals) (env : _PVFV → List Ev → Code)
    (malloc : List Ev → Bool) (xRet : Int) (fuel : Nat) (nRet : Int) (s : State) :
    List Call × State × Option Int :=
  -- term_atexit();
  match term_atexit env malloc fuel s with
  | none => ([Call.term_atexit], iterations env malloc fuel s, none)
  | some s =>
    -- _initterm(__xp_a, __xp_z);
    match callOut malloc (Call.initterm .xp) (X.initterm .xp) [Call.term_atexit] s with
    | (t, s, none) => (t, s, none)
    | (t, s, some _) =>
      -- _initterm(__xt_a, __xt_z);
      match callOut malloc (Call.initterm .xt) (X.initterm .xt) t s with
      | (t, s, none) => (t, s, none)
      | (t, s, some _) =>
        -- if (nRet == 0) nRet = xRet;
        let nRet := if nRet = 0 then xRet else nRet
        -- ExitProcess(nRet);
        (t ++ [Call.ExitProcess nRet], s, some nRet)

/-- An execution of the entry point, as far as it gets. -/
structure Run where
  /-- The calls made by the entry point, in order. -/
  calls : List Call
  /-- The registry at the end. -/
  registry : State
  /-- The argument of `ExitProcess`, when the execution reaches that call. -/
  exited : Option Int
  deriving DecidableEq, Repr

/-- The entry point `mainCRTStartup` (`WinMainCRTStartup`) executed from the registry `s0`. -/
def mainCRTStartup_run (X : Externals) (env : _PVFV → List Ev → Code)
    (malloc : List Ev → Bool) (apptype : AppType) (xRet : Int) (fuel : Nat) (s0 : State) :
    Run :=
  match mainCRTStartup_enter X malloc apptype s0 with
  | (t, s, none) => ⟨t, s, none⟩
  | (t, s, some nRet) =>
    match mainCRTStartup_leave X env malloc xRet fuel nRet s with
    | (t2, s2, e) => ⟨t ++ t2, s2, e⟩

/-- Outside functions that return at once, around the given `main`. -/
def externalsAround (m : Prog Int) : Externals where
  set_app_type := Prog.ret ()
  getmainargs := Prog.ret ()
  initterm := fun _ => Prog.ret ()
  GetStartupInfoA := Prog.ret ()
  GetCommandLineA := Prog.ret ()
  main := m

/-- A `main` that registers the callbacks at addresses 2 and 1, in this order, and
returns 3. -/
def mainRegisters : Prog Int :=
  Prog.call_atexit 2 (fun _ => Prog.call_atexit 1 (fun _ => Prog.ret 3))

/-! ## Theorems -/

/-! ### The log projections -/

theorem invoked_append (xs ys : List Ev) : invoked (xs ++ ys) = invoked xs ++ invoked ys := by
  induction xs with
  | nil => rfl
  | cons e es ih => cases e <;> simp [invoked, ih]

theorem registered_append (xs ys : List Ev) :
    registered (xs ++ ys) = registered xs ++ registered ys := by
  induction xs with
  | nil => rfl
  | cons e es ih =>
    cases e with
    | invoke p => simp [registered, ih]
    | atexit p r => by_cases hr : r = 0 <;> simp [registered, ih, hr]

theorem invoked_map_invoke (L : List _PVFV) : invoked (L.map Ev.invoke) = L := by
  induction L with
  | nil => rfl
  | cons a L ih => simp [invoked, ih]

theorem registered_map_invoke (L : List _PVFV) : registered (L.map Ev.invoke) = [] := by
  induction L with
  | nil => rfl
  | cons a L ih => simp [registered, ih]

theorem invoked_map_atexit (L : List _PVFV) (r : Int) :
    invoked (L.map (fun p => Ev.atexit p r)) = [] := by
  induction L with
  | nil => rfl
  | cons a L ih => simp [invoked, ih]

theorem registered_map_atexit (L : List _PVFV) :
    registered (L.map (fun p => Ev.atexit p 0)) = L := by
  induction L with
  | nil => rfl
  | cons a L ih => simp [registered, ih]

/-! ### One callback body -/

/-- A callback body only appends to the log, invokes nothing, and pushes the pointers whose
registration succeeded, the last one on top. -/
theorem run_effect (malloc : List Ev → Bool) (c : Code) (s : State) :
    ∃ suf, (c.run malloc s).log = s.log ++ suf ∧ invoked suf = [] ∧
      (c.run malloc s).atexit_list = (registered suf).reverse ++ s.atexit_list := by
  induction c generalizing s with
  | ret => exact ⟨[], by simp [Code.run, invoked, registered]⟩
  | call_atexit pfn k ih =>
    obtain ⟨suf, h1, h2, h3⟩ := ih (atexit malloc pfn s).1 (atexit malloc pfn s).2
    by_cases hm : malloc s.log = true
    · refine ⟨Ev.atexit pfn 0 :: suf, ?_, ?_, ?_⟩
      · simp only [Code.run, h1]; simp [atexit, hm]
      · simpa [invoked] using h2
      · simp only [Code.run, h3]; simp [atexit, hm, registered]
    · refine ⟨Ev.atexit pfn (-1) :: suf, ?_, ?_, ?_⟩
      · simp only [Code.run, h1]; simp [atexit, hm]
      · simpa [invoked] using h2
      · simp only [Code.run, h3]; simp [atexit, hm, registered]

/-- The entries below the top of the chain play no part in the run of a callback body. -/
theorem run_frame (malloc : List Ev → Bool) (c : Code) (A B : List _PVFV) (log : List Ev) :
    c.run malloc ⟨A ++ B, log⟩ =
      ⟨(c.run malloc ⟨A, log⟩).atexit_list ++ B, (c.run malloc ⟨A, log⟩).log⟩ := by
  induction c generalizing A log with
  | ret => simp [Code.run]
  | call_atexit pfn k ih =>
    by_cases hm : malloc log = true
    · have := ih 0 (pfn :: A) (log ++ [Ev.atexit pfn 0])
      simpa [Code.run, atexit, hm] using this
    · have := ih (-1) A (log ++ [Ev.atexit pfn (-1)])
      simpa [Code.run, atexit, hm] using this

/-- With a heap that never runs out, a body registers exactly `c.registers`. -/
theorem run_registers (malloc : List Ev → Bool) (hm : ∀ log, malloc log = true)
    (c : Code) (s : State) :
    c.run malloc s =
      ⟨c.registers.reverse ++ s.atexit_list,
        s.log ++ c.registers.map (fun p => Ev.atexit p 0)⟩ := by
  induction c generalizing s with
  | ret => simp [Code.run, Code.registers]
  | call_atexit pfn k ih =>
    simp [Code.run, Code.registers, atexit, hm, ih]


/-! ### The drain loop -/

theorem term_atexit_nil (env : _PVFV → List Ev → Code) (malloc : List Ev → Bool)
    (fuel : Nat) (s : State) (h : s.atexit_list = []) :
    term_atexit env malloc fuel s = some s := by
  cases fuel <;> simp [term_atexit, h]

theorem term_atexit_cons (env : _PVFV → List Ev → Code) (malloc : List Ev → Bool)
    (fuel : Nat) (pfn : _PVFV) (next : List _PVFV) (log : List Ev) :
    term_atexit env malloc (fuel + 1) ⟨pfn :: next, log⟩ =
      term_atexit env malloc fuel
        ((env pfn (log ++ [Ev.invoke pfn])).run malloc ⟨next, log ++ [Ev.invoke pfn]⟩) := by
  simp [term_atexit]

theorem term_atexit_zero_cons (env : _PVFV → List Ev → Code) (malloc : List Ev → Bool)
    (pfn : _PVFV) (next : List _PVFV) (log : List Ev) :
    term_atexit env malloc 0 ⟨pfn :: next, log⟩ = none := by
  simp [term_atexit]

/-- The loop is left only with an empty chain. -/
theorem term_atexit_empty (env : _PVFV → List Ev → Code) (malloc : List Ev → Bool)
    (fuel : Nat) (s s' : State) (h : term_atexit env malloc fuel s = some s') :
    s'.atexit_list = [] := by
  induction fuel generalizing s with
  | zero =>
    obtain ⟨L, log⟩ := s
    cases L with
    | nil => simp [term_atexit] at h; subst h; rfl
    | cons a L => simp [term_atexit] at h
  | succ n ih =>
    obtain ⟨L, log⟩ := s
    cases L with
    | nil => simp [term_atexit] at h; subst h; rfl
    | cons a L => rw [term_atexit_cons] at h; exact ih _ h

/-- A larger bound on the number of iterations does not change the outcome of a drain
that returns. -/
theorem term_atexit_mono (env : _PVFV → List Ev → Code) (malloc : List Ev → Bool)
    (fuel fuel' : Nat) (s s' : State) (h : term_atexit env malloc fuel s = some s')
    (hle : fuel ≤ fuel') : term_atexit env malloc fuel' s = some s' := by
  induction fuel generalizing s fuel' with
  | zero =>
    obtain ⟨L, log⟩ := s
    cases L with
    | nil => rw [term_atexit_nil _ _ _ _ rfl] at h ⊢; exact h
    | cons a L => simp [term_atexit] at h
  | succ n ih =>
    obtain ⟨L, log⟩ := s
    cases L with
    | nil => rw [term_atexit_nil _ _ _ _ rfl] at h ⊢; exact h
    | cons a L =>
      obtain ⟨m, rfl⟩ : ∃ m, fuel' = m + 1 := ⟨fuel' - 1, by omega⟩
      rw [term_atexit_cons] at h ⊢
      exact ih m _ h (by omega)

/-- Bookkeeping of a drain that returns: what was invoked is, up to order, what was pending
at the start together with what was registered on the way. -/
theorem drain_perm (env : _PVFV → List Ev → Code) (malloc : List Ev → Bool)
    (fuel : Nat) (s s' : State) (h : term_atexit env malloc fuel s = some s') :
    ∃ suf, s'.log = s.log ++ suf ∧
      (invoked suf).Perm (s.atexit_list ++ registered suf) := by
  induction fuel generalizing s with
  | zero =>
    obtain ⟨L, log⟩ := s
    cases L with
    | nil =>
      simp [term_atexit] at h; subst h
      exact ⟨[], by simp, by simp [invoked, registered]⟩
    | cons a L => simp [term_atexit] at h
  | succ n ih =>
    obtain ⟨L, log⟩ := s
    cases L with
    | nil =>
      simp [term_atexit] at h; subst h
      exact ⟨[], by simp, by simp [invoked, registered]⟩
    | cons a L =>
      rw [term_atexit_cons] at h
      obtain ⟨suf2, h2, hp⟩ := ih _ h
      obtain ⟨suf1, r1, r2, r3⟩ :=
        run_effect malloc (env a (log ++ [Ev.invoke a])) ⟨L, log ++ [Ev.invoke a]⟩
      refine ⟨Ev.invoke a :: (suf1 ++ suf2), ?_, ?_⟩
      · rw [h2, r1]; simp
      · rw [r3] at hp
        simp only [invoked, registered, invoked_append, registered_append, r2, List.nil_append]
        simp only [List.cons_append]
        refine List.Perm.cons a ?_
        refine hp.trans ?_
        have e1 : ((registered suf1).reverse ++ L) ++ registered suf2 =
            (registered suf1).reverse ++ (L ++ registered suf2) := by simp
        have e2 : L ++ (registered suf1 ++ registered suf2) =
            (L ++ registered suf1) ++ registered suf2 := by simp
        show (((registered suf1).reverse ++ L) ++ registered suf2).Perm
          (L ++ (registered suf1 ++ registered suf2))
        rw [e2]
        refine List.Perm.append_right _ ?_
        exact (List.Perm.append_right _ (List.reverse_perm _)).trans List.perm_append_comm

/-- Stack discipline: a drain of the chain `A ++ B` that returns is a drain of `A` (with all
that the callbacks of `A` cause to be registered) followed by a drain of `B`. -/
theorem drain_split (env : _PVFV → List Ev → Code) (malloc : List Ev → Bool)
    (fuel : Nat) (A B : List _PVFV) (log : List Ev) (s' : State)
    (h : term_atexit env malloc fuel ⟨A ++ B, log⟩ = some s') :
    ∃ f1 f2 log1, term_atexit env malloc f1 ⟨A, log⟩ = some ⟨[], log1⟩ ∧
      term_atexit env malloc f2 ⟨B, log1⟩ = some s' := by
  induction fuel generalizing A log with
  | zero =>
    cases A with
    | nil => exact ⟨0, 0, log, by simp [term_atexit], by simpa using h⟩
    | cons a A => simp [term_atexit] at h
  | succ n ih =>
    cases A with
    | nil => exact ⟨0, n + 1, log, by simp [term_atexit], by simpa using h⟩
    | cons a A =>
      rw [List.cons_append, term_atexit_cons, run_frame] at h
      obtain ⟨f1, f2, log1, h1, h2⟩ := ih _ _ h
      exact ⟨f1 + 1, f2, log1, by rw [term_atexit_cons]; exact h1, h2⟩

/-- A chain whose callbacks call nothing is drained in as many iterations as it has entries,
head first. -/
theorem drain_quiet (env : _PVFV → List Ev → Code) (malloc : List Ev → Bool)
    (L : List _PVFV) (log : List Ev) (hq : ∀ c ∈ L, ∀ l, env c l = Code.ret) :
    term_atexit env malloc L.length ⟨L, log⟩ = some ⟨[], log ++ L.map Ev.invoke⟩ := by
  induction L generalizing log with
  | nil => simp [term_atexit]
  | cons a L ih =>
    rw [List.length_cons, term_atexit_cons, hq a (List.mem_cons_self _ _)]
    simp only [Code.run]
    rw [ih _ (fun c hc => hq c (List.mem_cons_of_mem _ hc))]
    simp

/-- A chain whose callbacks call nothing is not drained in fewer iterations than it has
entries. -/
theorem drain_quiet_short (env : _PVFV → List Ev → Code) (malloc : List Ev → Bool)
    (L : List _PVFV) (log : List Ev) (hq : ∀ c ∈ L, ∀ l, env c l = Code.ret)
    (fuel : Nat) (hlt : fuel < L.length) :
    term_atexit env malloc fuel ⟨L, log⟩ = none := by
  induction L generalizing log fuel with
  | nil => simp at hlt
  | cons a L ih =>
    cases fuel with
    | zero => simp [term_atexit]
    | succ n =>
      rw [term_atexit_cons, hq a (List.mem_cons_self _ _)]
      simp only [Code.run]
      exact ih _ (fun c hc => hq c (List.mem_cons_of_mem _ hc)) n (by simpa using hlt)

/-- Registering `cs` in order on a heap that never runs out stacks them, last on top. -/
theorem registerAll_ok (malloc : List Ev → Bool) (hm : ∀ log, malloc log = true)
    (cs : List _PVFV) (s : State) :
    registerAll malloc cs s =
      ⟨cs.reverse ++ s.atexit_list, s.log ++ cs.map (fun p => Ev.atexit p 0)⟩ := by
  induction cs generalizing s with
  | nil => simp [registerAll]
  | cons c cs ih =>
    have := ih (atexit malloc c s).2
    simp only [registerAll, List.foldl_cons] at this ⊢
    rw [this]
    simp [atexit, hm]

/-- The bounded loop returns exactly when the chain is empty after that many iterations. -/
theorem term_atexit_eq_iterations (env : _PVFV → List Ev → Code) (malloc : List Ev → Bool)
    (fuel : Nat) (s : State) :
    term_atexit env malloc fuel s =
      if (iterations env malloc fuel s).atexit_list = [] then
        some (iterations env malloc fuel s)
      else none := by
  induction fuel generalizing s with
  | zero =>
    obtain ⟨L, log⟩ := s
    cases L <;> simp [term_atexit, iterations]
  | succ n ih =>
    obtain ⟨L, log⟩ := s
    cases L with
    | nil => simp [term_atexit, iterations]
    | cons a L => simp only [term_atexit, iterations]; exact ih _

/-- A callback that registers itself is back at the head of the chain after each iteration. -/
theorem iterations_self (env : _PVFV → List Ev → Code) (malloc : List Ev → Bool)
    (f : _PVFV) (hf : ∀ l, env f l = Code.call_atexit f (fun _ => Code.ret))
    (hm : ∀ l, malloc l = true) (n : Nat) (R : List _PVFV) (log : List Ev) :
    (iterations env malloc n ⟨f :: R, log⟩).atexit_list = f :: R := by
  induction n generalizing log with
  | zero => rfl
  | succ n ih =>
    simp only [iterations, hf, Code.run, atexit, hm, if_true]
    exact ih _

/-! ### The entry point -/

/-- A run whose drain never returns: `main` registers 2 and 1 and returns 3, every callback
registers itself again; whatever the number of iterations followed, the last call made is
`term_atexit` and `ExitProcess` is not reached. -/
theorem drain_noreturn_run (fuel : Nat) :
    mainCRTStartup_run (externalsAround mainRegisters) envSelf mallocOk
        AppType.CONSOLE_APP 9 fuel State.init =
      ⟨[Call.set_app_type 1, Call.getmainargs, Call.initterm Table.xi, Call.initterm Table.xc,
          Call.main 3, Call.term_atexit],
        iterations envSelf mallocOk fuel ⟨[1, 2], [Ev.atexit 2 0, Ev.atexit 1 0]⟩, none⟩ := by
  have he : mainCRTStartup_enter (externalsAround mainRegisters) mallocOk
      AppType.CONSOLE_APP State.init =
      ([Call.set_app_type 1, Call.getmainargs, Call.initterm Table.xi, Call.initterm Table.xc,
        Call.main 3], ⟨[1, 2], [Ev.atexit 2 0, Ev.atexit 1 0]⟩, some 3) := rfl
  have hd : term_atexit envSelf mallocOk fuel ⟨[1, 2], [Ev.atexit 2 0, Ev.atexit 1 0]⟩ =
      none := by
    rw [term_atexit_eq_iterations,
      iterations_self envSelf mallocOk 1 (fun _ => rfl) (fun _ => rfl) fuel [2] _]
    simp
  simp [mainCRTStartup_run, he, mainCRTStartup_leave, hd]

/-! ### The claims -/

/-- C1: starting from the empty registry with every allocation succeeding, after
`atexit c1, ..., atexit cN` for callbacks that register nothing, `term_atexit` returns
and the callbacks it invoked are `cN, ..., c1`, the reverse of the registration sequence. -/
theorem drain_reverses_registration (env : _PVFV → List Ev → Code)
    (malloc : List Ev → Bool) (cs : List _PVFV)
    (hm : ∀ log, malloc log = true) (hq : ∀ c ∈ cs, ∀ l, env c l = Code.ret) :
    term_atexit env malloc cs.length (registerAll malloc cs State.init) =
      some ⟨[], (registerAll malloc cs State.init).log ++ cs.reverse.map Ev.invoke⟩ ∧
    invoked ((registerAll malloc cs State.init).log ++ cs.reverse.map Ev.invoke) =
      cs.reverse := by
  have hreg := registerAll_ok malloc hm cs State.init
  simp only [State.init, List.append_nil, List.nil_append] at hreg
  have hq' : ∀ c ∈ cs.reverse, ∀ l, env c l = Code.ret :=
    fun c hc => hq c (List.mem_reverse.mp hc)
  have hd := drain_quiet env malloc cs.reverse (cs.map (fun p => Ev.atexit p 0)) hq'
  rw [List.length_reverse] at hd
  simp only [State.init]
  rw [hreg]
  refine ⟨hd, ?_⟩
  rw [invoked_append, invoked_map_atexit, invoked_map_invoke, List.nil_append]

/-- Witness for C1: register A = 1, B = 2, C = 3; the drain invokes C, B, A. -/
theorem drain_reverses_registration_witness :
    (∀ log, mallocOk log = true) ∧ (∀ c ∈ [1, 2, 3], ∀ l, envQuiet c l = Code.ret) ∧
    term_atexit envQuiet mallocOk 3 (registerAll mallocOk [1, 2, 3] State.init) =
      some ⟨[], (registerAll mallocOk [1, 2, 3] State.init).log ++
        [Ev.invoke 3, Ev.invoke 2, Ev.invoke 1]⟩ ∧
    invoked ((registerAll mallocOk [1, 2, 3] State.init).log ++
        [Ev.invoke 3, Ev.invoke 2, Ev.invoke 1]) = [3, 2, 1] :=
  ⟨fun _ => rfl, fun _ _ _ => rfl,
    drain_reverses_registration envQuiet mallocOk [1, 2, 3] (fun _ => rfl) (fun _ _ _ => rfl)⟩

/-- C2: when the allocation succeeds, `atexit f` returns 0 and the chain afterwards is `f`
followed by the previous chain, unchanged. -/
theorem atexit_success (malloc : List Ev → Bool) (f : _PVFV) (s : State)
    (hm : malloc s.log = true) :
    (atexit malloc f s).1 = 0 ∧
    (atexit malloc f s).2.atexit_list = f :: s.atexit_list ∧
    (atexit malloc f s).2.atexit_list.head? = some f ∧
    (atexit malloc f s).2.atexit_list.tail = s.atexit_list := by
  simp [atexit, hm]

/-- Witness for C2: registering 7 on the chain [3, 5] under a heap that never runs out. -/
theorem atexit_success_witness :
    (atexit mallocOk 7 ⟨[3, 5], []⟩).1 = 0 ∧
    (atexit mallocOk 7 ⟨[3, 5], []⟩).2.atexit_list = [7, 3, 5] ∧
    (atexit mallocOk 7 ⟨[3, 5], []⟩).2.atexit_list.head? = some 7 ∧
    (atexit mallocOk 7 ⟨[3, 5], []⟩).2.atexit_list.tail = [3, 5] :=
  atexit_success mallocOk 7 ⟨[3, 5], []⟩ rfl

/-- C3: when the allocation fails, `atexit f` returns -1, which is not the success value 0,
the chain is left exactly as it was, nothing is invoked, and a later drain that returns
invokes the entries of the old chain and those registered during that drain, no others. -/
theorem atexit_failure (env : _PVFV → List Ev → Code) (malloc malloc2 : List Ev → Bool)
    (f : _PVFV) (s : State) (hm : malloc s.log = false) :
    (atexit malloc f s).1 = -1 ∧ (atexit malloc f s).1 ≠ 0 ∧
    (atexit malloc f s).2.atexit_list = s.atexit_list ∧
    (atexit malloc f s).2.atexit_list.length = s.atexit_list.length ∧
    invoked (atexit malloc f s).2.log = invoked s.log ∧
    registered (atexit malloc f s).2.log = registered s.log ∧
    ∀ fuel s', term_atexit env malloc2 fuel (atexit malloc f s).2 = some s' →
      ∃ suf, s'.log = (atexit malloc f s).2.log ++ suf ∧
        (invoked suf).Perm (s.atexit_list ++ registered suf) ∧
        (invoked suf).count f = s.atexit_list.count f + (registered suf).count f := by
  have hs : atexit malloc f s = (-1, ⟨s.atexit_list, s.log ++ [Ev.atexit f (-1)]⟩) := by
    simp [atexit, hm]
  rw [hs]
  refine ⟨rfl, by simp, rfl, rfl, ?_, ?_, ?_⟩
  · simp [invoked_append, invoked]
  · simp [registered_append, registered]
  · intro fuel s' h
    obtain ⟨suf, h1, h2⟩ := drain_perm env malloc2 fuel _ s' h
    refine ⟨suf, h1, h2, ?_⟩
    rw [h2.count_eq, List.count_append]

/-- Witness for C3: a failed registration of 7 on the chain [3, 5]. -/
theorem atexit_failure_witness :
    mallocFail ([] : List Ev) = false ∧
    (atexit mallocFail 7 ⟨[3, 5], []⟩).1 = -1 ∧
    (atexit mallocFail 7 ⟨[3, 5], []⟩).2.atexit_list = [3, 5] ∧
    term_atexit envQuiet mallocOk 2 (atexit mallocFail 7 ⟨[3, 5], []⟩).2 =
      some ⟨[], [Ev.atexit 7 (-1), Ev.invoke 3, Ev.invoke 5]⟩ :=
  ⟨rfl, (atexit_failure envQuiet mallocFail mallocOk 7 ⟨[3, 5], []⟩ rfl).1,
    (atexit_failure envQuiet mallocFail mallocOk 7 ⟨[3, 5], []⟩ rfl).2.2.1, rfl⟩

/-- C4, as stated, fails: on the chain [1, 2], where the callback 1 registers 4, the drain
invokes 1, 4, 2, so the new entry 4 runs before the entry 2 that was pending when the drain
began.  Hence it is not true that every entry registered during a drain is invoked after
all the entries of the initial chain. -/
theorem nested_entry_runs_before_pending :
    term_atexit envNested mallocOk 3 ⟨[1, 2], []⟩ =
      some ⟨[], [Ev.invoke 1, Ev.atexit 4 0, Ev.invoke 4, Ev.invoke 2]⟩ ∧
    ¬ (∀ (env : _PVFV → List Ev → Code) (malloc : List Ev → Bool) (fuel : Nat)
        (L : List _PVFV) (s' : State),
        term_atexit env malloc fuel ⟨L, []⟩ = some s' →
        ∀ (i : Nat) (D : _PVFV), s'.log[i]? = some (Ev.atexit D 0) →
          ∃ j : Nat, s'.log[j]? = some (Ev.invoke D) ∧
            ∀ e ∈ L, ∃ k : Nat, k < j ∧ s'.log[k]? = some (Ev.invoke e)) := by
  refine ⟨rfl, ?_⟩
  intro H
  obtain ⟨j, hj, hall⟩ := H envNested mallocOk 3 [1, 2]
    ⟨[], [Ev.invoke 1, Ev.atexit 4 0, Ev.invoke 4, Ev.invoke 2]⟩ rfl 1 4 rfl
  obtain ⟨k, hk, hk2⟩ := hall 2 (by simp)
  rcases j with _ | _ | _ | _ | j
  · simp at hj
  · simp at hj
  · rcases k with _ | _ | k
    · simp at hk2
    · simp at hk2
    · omega
  · simp at hj
  · simp at hj

/-- C4, amended: in every run of `term_atexit` that returns, started on the chain
`P ++ h :: R`, the log of the drain is `sufP ++ [invoke h] ++ sufH ++ sufD ++ sufR`, where
`sufP` holds the invocations of the entries of `P`, `sufH` is what the body of `h` did, `sufD`
holds an invocation of every `D` that `h` registered, and `sufR` holds the invocations of the
entries of `R`.  So `D` is invoked before the return, after `h` and after the entries that were
ahead of `h`, and before the entries that were behind `h`. -/
theorem drain_nested_order (env : _PVFV → List Ev → Code) (malloc : List Ev → Bool)
    (fuel : Nat) (P : List _PVFV) (h : _PVFV) (R : List _PVFV) (log : List Ev) (s' : State)
    (hrun : term_atexit env malloc fuel ⟨P ++ h :: R, log⟩ = some s') :
    ∃ sufP sufH sufD sufR,
      s'.log = log ++ sufP ++ [Ev.invoke h] ++ sufH ++ sufD ++ sufR ∧
      (invoked sufP).Perm (P ++ registered sufP) ∧
      (env h (log ++ sufP ++ [Ev.invoke h])).run malloc ⟨R, log ++ sufP ++ [Ev.invoke h]⟩ =
        ⟨(registered sufH).reverse ++ R, log ++ sufP ++ [Ev.invoke h] ++ sufH⟩ ∧
      invoked sufH = [] ∧
      (∀ D ∈ registered sufH, D ∈ invoked sufD) ∧
      (invoked sufD).Perm (registered sufH ++ registered sufD) ∧
      (invoked sufR).Perm (R ++ registered sufR) := by
  obtain ⟨f1, f2, logP, h1, h2⟩ := drain_split env malloc fuel P (h :: R) log s' hrun
  obtain ⟨sufP, eP, pP⟩ := drain_perm env malloc f1 _ _ h1
  simp only at eP pP
  subst eP
  cases f2 with
  | zero => simp [term_atexit] at h2
  | succ n =>
    rw [term_atexit_cons] at h2
    have hfr := run_frame malloc (env h (log ++ sufP ++ [Ev.invoke h])) [] R
      (log ++ sufP ++ [Ev.invoke h])
    rw [List.nil_append] at hfr
    obtain ⟨sufH, eH, iH, cH⟩ := run_effect malloc (env h (log ++ sufP ++ [Ev.invoke h]))
      ⟨[], log ++ sufP ++ [Ev.invoke h]⟩
    simp only [List.append_nil] at eH cH
    rw [hfr, eH, cH] at h2
    obtain ⟨f3, f4, logD, h3, h4⟩ := drain_split env malloc n _ R _ s' h2
    obtain ⟨sufD, eD, pD⟩ := drain_perm env malloc f3 _ _ h3
    simp only at eD pD
    subst eD
    obtain ⟨sufR, eR, pR⟩ := drain_perm env malloc f4 _ _ h4
    simp only at eR pR
    refine ⟨sufP, sufH, sufD, sufR, eR, pP, ?_, iH, ?_, ?_, pR⟩
    · rw [hfr, eH, cH]
    · intro D hD
      exact pD.symm.subset (List.mem_append_left _ (List.mem_reverse.mpr hD))
    · exact pD.trans (List.Perm.append_right _ (List.reverse_perm _))

/-- Witness for C4 amended: the spec scenario with an older entry behind: the chain [1, 2],
where 1 registers 4. -/
theorem drain_nested_order_witness :
    term_atexit envNested mallocOk 3 ⟨[] ++ 1 :: [2], []⟩ =
      some ⟨[], [Ev.invoke 1, Ev.atexit 4 0, Ev.invoke 4, Ev.invoke 2]⟩ ∧
    ∃ sufP sufH sufD sufR,
      (⟨[], [Ev.invoke 1, Ev.atexit 4 0, Ev.invoke 4, Ev.invoke 2]⟩ : State).log =
        [] ++ sufP ++ [Ev.invoke 1] ++ sufH ++ sufD ++ sufR ∧
      (invoked sufP).Perm ([] ++ registered sufP) ∧
      (envNested 1 ([] ++ sufP ++ [Ev.invoke 1])).run mallocOk
          ⟨[2], [] ++ sufP ++ [Ev.invoke 1]⟩ =
        ⟨(registered sufH).reverse ++ [2], [] ++ sufP ++ [Ev.invoke 1] ++ sufH⟩ ∧
      invoked sufH = [] ∧
      (∀ D ∈ registered sufH, D ∈ invoked sufD) ∧
      (invoked sufD).Perm (registered sufH ++ registered sufD) ∧
      (invoked sufR).Perm ([2] ++ registered sufR) :=
  ⟨rfl, drain_nested_order envNested mallocOk 3 [] 1 [2] [] _ rfl⟩

/-- C5: in every run of `term_atexit` that returns, the callbacks invoked are, as a multiset,
those pending at the start plus those registered successfully during the drain; hence the
number of invocations is the initial chain length plus the number of successful
registrations, and each callback is invoked as many times as it was registered. -/
theorem drain_invokes_each_once (env : _PVFV → List Ev → Code) (malloc : List Ev → Bool)
    (fuel : Nat) (s s' : State) (h : term_atexit env malloc fuel s = some s') :
    ∃ suf, s'.log = s.log ++ suf ∧
      (invoked suf : Multiset _PVFV) =
        (s.atexit_list : Multiset _PVFV) + (registered suf : Multiset _PVFV) ∧
      (invoked suf).length = s.atexit_list.length + (registered suf).length ∧
      ∀ f, (invoked suf).count f = s.atexit_list.count f + (registered suf).count f := by
  obtain ⟨suf, h1, h2⟩ := drain_perm env malloc fuel s s' h
  refine ⟨suf, h1, ?_, ?_, ?_⟩
  · rw [Multiset.coe_add]; exact Multiset.coe_eq_coe.mpr h2
  · rw [h2.length_eq, List.length_append]
  · intro f; rw [h2.count_eq, List.count_append]

/-- Witness for C5: the chain [1, 1, 2], where each invocation of 1 registers 4. -/
theorem drain_invokes_each_once_witness :
    term_atexit envNested mallocOk 5 ⟨[1, 1, 2], []⟩ =
      some ⟨[], [Ev.invoke 1, Ev.atexit 4 0, Ev.invoke 4, Ev.invoke 1, Ev.atexit 4 0,
        Ev.invoke 4, Ev.invoke 2]⟩ ∧
    ∃ suf, (⟨[], [Ev.invoke 1, Ev.atexit 4 0, Ev.invoke 4, Ev.invoke 1, Ev.atexit 4 0,
        Ev.invoke 4, Ev.invoke 2]⟩ : State).log = ([] : List Ev) ++ suf ∧
      (invoked suf : Multiset _PVFV) =
        (([1, 1, 2] : List _PVFV) : Multiset _PVFV) + (registered suf : Multiset _PVFV) ∧
      (invoked suf).length = ([1, 1, 2] : List _PVFV).length + (registered suf).length ∧
      ∀ f, (invoked suf).count f =
        ([1, 1, 2] : List _PVFV).count f + (registered suf).count f :=
  ⟨rfl, drain_invokes_each_once envNested mallocOk 5 ⟨[1, 1, 2], []⟩ _ rfl⟩

/-- C6: when `term_atexit` returns the chain is empty, and a second run right afterwards
returns at once, in zero iterations, with the registry and the log unchanged, whatever the
callbacks would do; in particular a drain of the empty registry changes nothing. -/
theorem term_atexit_idempotent (env : _PVFV → List Ev → Code) (malloc : List Ev → Bool)
    (fuel : Nat) (s s' : State) (h : term_atexit env malloc fuel s = some s') :
    s'.atexit_list = [] ∧
    (∀ env2 malloc2 fuel2, term_atexit env2 malloc2 fuel2 s' = some s') ∧
    (∀ env2 malloc2, term_atexit env2 malloc2 0 s' = some s') ∧
    (∀ env2 malloc2 fuel2, iterations env2 malloc2 fuel2 s' = s') ∧
    (∀ env0 malloc0 fuel0 log0,
      term_atexit env0 malloc0 fuel0 ⟨[], log0⟩ = some ⟨[], log0⟩) := by
  have he := term_atexit_empty env malloc fuel s s' h
  refine ⟨he, ?_, ?_, ?_, ?_⟩
  · intro env2 malloc2 fuel2
    exact term_atexit_nil env2 malloc2 fuel2 s' he
  · intro env2 malloc2
    exact term_atexit_nil env2 malloc2 0 s' he
  · intro env2 malloc2 fuel2
    cases fuel2 <;> simp [iterations, he]
  · intro env0 malloc0 fuel0 log0
    exact term_atexit_nil env0 malloc0 fuel0 _ rfl

/-- Witness for C6: the drain of [1, 2] where 1 registers 4, followed by a second drain. -/
theorem term_atexit_idempotent_witness :
    term_atexit envNested mallocOk 3 ⟨[1, 2], []⟩ =
      some ⟨[], [Ev.invoke 1, Ev.atexit 4 0, Ev.invoke 4, Ev.invoke 2]⟩ ∧
    ∀ fuel2, term_atexit envNested mallocOk fuel2
        ⟨[], [Ev.invoke 1, Ev.atexit 4 0, Ev.invoke 4, Ev.invoke 2]⟩ =
      some ⟨[], [Ev.invoke 1, Ev.atexit 4 0, Ev.invoke 4, Ev.invoke 2]⟩ :=
  ⟨rfl, fun fuel2 =>
    (term_atexit_idempotent envNested mallocOk 3 ⟨[1, 2], []⟩ _ rfl).2.1
      envNested mallocOk fuel2⟩

/-- C8: the head is unlinked before its callback runs, so what the callback registers is
pushed on the remaining chain and runs next: on the chain `h :: R`, where `h` registers
`d1, ..., dk` and neither these nor the callbacks of `R` register anything, the drain returns
after `1 + k + |R|` iterations having invoked `h`, then `dk, ..., d1`, then `R` in chain
order. -/
theorem drain_runs_nested_next (env : _PVFV → List Ev → Code) (malloc : List Ev → Bool)
    (h : _PVFV) (R ds : List _PVFV) (log : List Ev)
    (hm : ∀ l, malloc l = true)
    (hh : (env h (log ++ [Ev.invoke h])).registers = ds)
    (hd : ∀ c ∈ ds, ∀ l, env c l = Code.ret)
    (hR : ∀ c ∈ R, ∀ l, env c l = Code.ret) :
    iterations env malloc 1 ⟨h :: R, log⟩ =
      ⟨ds.reverse ++ R, log ++ [Ev.invoke h] ++ ds.map (fun p => Ev.atexit p 0)⟩ ∧
    term_atexit env malloc (1 + ds.length + R.length) ⟨h :: R, log⟩ =
      some ⟨[], log ++ [Ev.invoke h] ++ ds.map (fun p => Ev.atexit p 0) ++
        (ds.reverse ++ R).map Ev.invoke⟩ ∧
    invoked ([Ev.invoke h] ++ ds.map (fun p => Ev.atexit p 0) ++
        (ds.reverse ++ R).map Ev.invoke) = h :: (ds.reverse ++ R) := by
  have hrun := run_registers malloc hm (env h (log ++ [Ev.invoke h]))
    ⟨R, log ++ [Ev.invoke h]⟩
  rw [hh] at hrun
  have hq : ∀ c ∈ ds.reverse ++ R, ∀ l, env c l = Code.ret := by
    intro c hc
    rcases List.mem_append.mp hc with hc | hc
    · exact hd c (List.mem_reverse.mp hc)
    · exact hR c hc
  have hdr := drain_quiet env malloc (ds.reverse ++ R)
    (log ++ [Ev.invoke h] ++ ds.map (fun p => Ev.atexit p 0)) hq
  refine ⟨?_, ?_, ?_⟩
  · simp only [iterations]; rw [hrun]
  · have e : 1 + ds.length + R.length = (ds.reverse ++ R).length + 1 := by
      simp [List.length_append]; omega
    rw [e, term_atexit_cons, hrun]
    exact hdr
  · rw [invoked_append, invoked_append, invoked_map_atexit, invoked_map_invoke]
    simp [invoked]

/-- Witness for C8: the chain [1, 2, 3], where 1 registers 4 and then 5. -/
theorem drain_runs_nested_next_witness :
    (envPair 1 ([] ++ [Ev.invoke 1])).registers = [4, 5] ∧
    term_atexit envPair mallocOk
        (1 + ([4, 5] : List _PVFV).length + ([2, 3] : List _PVFV).length)
        ⟨1 :: [2, 3], []⟩ =
      some ⟨[], [] ++ [Ev.invoke 1] ++ [4, 5].map (fun p => Ev.atexit p 0) ++
        ([4, 5].reverse ++ [2, 3]).map Ev.invoke⟩ ∧
    invoked ([Ev.invoke 1] ++ [4, 5].map (fun p => Ev.atexit p 0) ++
        ([4, 5].reverse ++ [2, 3]).map Ev.invoke) = 1 :: ([4, 5].reverse ++ [2, 3]) :=
  ⟨rfl, (drain_runs_nested_next envPair mallocOk 1 [2, 3] [4, 5] [] (fun _ => rfl) rfl
    (by intro c hc l; simp at hc; rcases hc with rfl | rfl <;> rfl)
    (by intro c hc l; simp at hc; rcases hc with rfl | rfl <;> rfl)).2⟩

/-- C9: `term_atexit` need not terminate.  When the callback `f` registers itself each time
it is invoked and the allocations succeed, the chain that starts as `[f]` is `[f]` again after
every number of iterations, and no bound on the iterations lets the drain return.
Conversely, when no pending callback registers anything, the drain returns after exactly as
many iterations as the chain has entries, and after no fewer. -/
theorem term_atexit_may_diverge :
    (∃ (env : _PVFV → List Ev → Code) (malloc : List Ev → Bool) (f : _PVFV),
      (∀ l, env f l = Code.call_atexit f (fun _ => Code.ret)) ∧ (∀ l, malloc l = true) ∧
      (∀ s, (atexit malloc f s).1 = 0) ∧
      (∀ n, (iterations env malloc n ⟨[f], []⟩).atexit_list ≠ []) ∧
      (∀ n, (iterations env malloc n ⟨[f], []⟩).atexit_list = [f]) ∧
      (∀ n, (invoked (iterations env malloc n ⟨[f], []⟩).log).length = n) ∧
      ∀ fuel, term_atexit env malloc fuel ⟨[f], []⟩ = none) ∧
    (∀ (env : _PVFV → List Ev → Code) (malloc : List Ev → Bool) (L : List _PVFV)
        (log : List Ev), (∀ c ∈ L, ∀ l, env c l = Code.ret) →
      term_atexit env malloc L.length ⟨L, log⟩ = some ⟨[], log ++ L.map Ev.invoke⟩ ∧
      (invoked (L.map Ev.invoke)).length = L.length ∧
      (∀ fuel, fuel < L.length → term_atexit env malloc fuel ⟨L, log⟩ = none) ∧
      (∀ fuel, L.length ≤ fuel →
        term_atexit env malloc fuel ⟨L, log⟩ = some ⟨[], log ++ L.map Ev.invoke⟩)) := by
  constructor
  · have hiter : ∀ n, (iterations envSelf mallocOk n ⟨[7], []⟩).atexit_list = [7] :=
      fun n => iterations_self envSelf mallocOk 7 (fun _ => rfl) (fun _ => rfl) n [] []
    refine ⟨envSelf, mallocOk, 7, fun _ => rfl, fun _ => rfl, fun _ => rfl, ?_, hiter, ?_, ?_⟩
    · intro n
      rw [hiter n]; simp
    · intro n
      have key : ∀ (n : Nat) (log : List Ev),
          invoked (iterations envSelf mallocOk n ⟨[7], log⟩).log =
            invoked log ++ List.replicate n 7 := by
        intro n
        induction n with
        | zero => intro log; simp [iterations]
        | succ n ih =>
          intro log
          simp only [iterations, envSelf, Code.run, atexit, mallocOk, if_true]
          rw [ih]
          simp [invoked_append, invoked, List.replicate_succ]
      rw [key n []]
      simp [invoked]
    · intro fuel
      rw [term_atexit_eq_iterations, hiter fuel]
      simp
  · intro env malloc L log hq
    refine ⟨drain_quiet env malloc L log hq, by rw [invoked_map_invoke], ?_, ?_⟩
    · intro fuel hlt
      exact drain_quiet_short env malloc L log hq fuel hlt
    · intro fuel hle
      exact term_atexit_mono env malloc L.length fuel _ _ (drain_quiet env malloc L log hq) hle

/-- Witness for C9: three quiet entries are drained in exactly three iterations. -/
theorem term_atexit_may_diverge_witness :
    (∀ c ∈ [1, 2, 3], ∀ l, envQuiet c l = Code.ret) ∧
    term_atexit envQuiet mallocOk 3 ⟨[1, 2, 3], []⟩ =
      some ⟨[], [Ev.invoke 1, Ev.invoke 2, Ev.invoke 3]⟩ ∧
    ∀ fuel, fuel < 3 → term_atexit envQuiet mallocOk fuel ⟨[1, 2, 3], []⟩ = none :=
  ⟨fun _ _ _ => rfl,
    (term_atexit_may_diverge.2 envQuiet mallocOk [1, 2, 3] [] (fun _ _ _ => rfl)).1,
    (term_atexit_may_diverge.2 envQuiet mallocOk [1, 2, 3] [] (fun _ _ _ => rfl)).2.2.1⟩

/-- C10: `ExitProcess` receives the value returned by `main` whenever that value is not 0,
whatever `xRet` holds; when `main` returns 0 it receives the content of `xRet`, so the exit
code then follows the unassigned variable and need not be 0. -/
theorem exit_code_of_main (apptype : AppType) (r xRet : Int) :
    (∃ pre, mainCRTStartup apptype r xRet =
      pre ++ [Call.ExitProcess (if r = 0 then xRet else r)] ∧ ∀ c, Call.ExitProcess c ∉ pre) ∧
    (r ≠ 0 → ∀ x, exitCode (mainCRTStartup apptype r x) = some r) ∧
    exitCode (mainCRTStartup apptype 0 xRet) = some xRet ∧
    (∀ x y, x ≠ y →
      exitCode (mainCRTStartup apptype 0 x) ≠ exitCode (mainCRTStartup apptype 0 y)) ∧
    (∃ x, exitCode (mainCRTStartup apptype 0 x) ≠ some 0) := by
  have hx : ∀ x, exitCode (mainCRTStartup apptype 0 x) = some x := by
    intro x; cases apptype <;> simp [mainCRTStartup, exitCode]
  refine ⟨?_, ?_, hx xRet, ?_, ⟨1, by rw [hx]; simp⟩⟩
  · cases apptype
    · exact ⟨_, rfl, by simp⟩
    · exact ⟨_, rfl, by simp⟩
  · intro hr x
    cases apptype <;> simp [mainCRTStartup, exitCode, hr]
  · intro x y hxy
    rw [hx, hx]
    simpa using hxy

/-- Witness for C10: `main` returns 3 while `xRet` holds 9, in a console build. -/
theorem exit_code_of_main_witness :
    (3 : Int) ≠ 0 ∧ exitCode (mainCRTStartup AppType.CONSOLE_APP 3 9) = some 3 :=
  ⟨by decide, (exit_code_of_main AppType.CONSOLE_APP 3 9).2.1 (by decide) 9⟩

end Winsdk
